import Mathlib

/-
Verification of the text-segmentation core of the MaiBot detailed-explanation
plugin (src/plugin.py).  Strings are modelled as lists of characters.  The
whitespace set is the ASCII fragment shared by Python's str.strip and the
regex class \s; all characters appearing in the analysed properties are ASCII
or the configured CJK separators, which are not whitespace.
-/

namespace DetailedExplanation

abbrev Str := List Char

/-- Whitespace characters (ASCII fragment of Python str.isspace and regex \s). -/
def isSpace (c : Char) : Bool :=
  c = ' ' || c = '\t' || c = '\n' || c = '\r' || c = '\x0B' || c = '\x0C'

def notSpace (c : Char) : Bool := !(isSpace c)

/-- Python str.strip: drop whitespace from both ends. -/
def strip (s : Str) : Str :=
  ((s.dropWhile isSpace).reverse.dropWhile isSpace).reverse

/-- The canonical double-newline joiner inserted by the smart algorithm. -/
def nl2 : Str := ['\n', '\n']

/-- Default value of the segmentation.sentence_separators config option. -/
def defaultSeparators : List Char := ['。', '！', '？', '.', '!', '?']

/-- Number of newline characters in a string. -/
def nlCount (w : Str) : Nat := w.countP (fun c => c = '\n')

/-- Longest prefix without a newline. -/
def beforeFirstNl (w : Str) : Str := w.takeWhile (fun c => c ≠ '\n')

/-- Longest suffix without a newline. -/
def afterLastNl (w : Str) : Str := (w.reverse.takeWhile (fun c => c ≠ '\n')).reverse

/-- One-pass model of re.split applied to the paragraph pattern (a newline,
then greedy whitespace, then a newline).  A match of that pattern is a
maximal whitespace run containing at least two newlines, consumed from its
first to its last newline; whitespace of the run before the first newline
stays with the preceding paragraph and whitespace after the last newline
stays with the following paragraph.  The scan keeps the pending whitespace
run in pend and resolves it at the next non-whitespace character or at the
end of the text. -/
def paraGo (acc : List Str) (cur pend : Str) : Str → List Str
  | [] =>
    if 2 ≤ nlCount pend then
      acc ++ [cur ++ beforeFirstNl pend, afterLastNl pend]
    else acc ++ [cur ++ pend]
  | c :: rest =>
    if isSpace c then paraGo acc cur (pend ++ [c]) rest
    else if 2 ≤ nlCount pend then
      paraGo (acc ++ [cur ++ beforeFirstNl pend]) (afterLastNl pend ++ [c]) [] rest
    else paraGo acc (cur ++ pend ++ [c]) [] rest

/-- re.split of the blank-line pattern over the whole content (plugin.py:214). -/
def paraSplit (content : Str) : List Str := paraGo [] [] [] content

def consHead (c : Char) : List Str → List Str
  | [] => [[c]]
  | p :: ps => (c :: p) :: ps

/-- re.split with a single-character-class capture group (plugin.py:289-290):
the result alternates separator-free chunks with single captured separator
characters and always has odd length. -/
def splitParts (seps : List Char) : Str → List Str
  | [] => [[]]
  | c :: rest =>
    if c ∈ seps then [] :: [c] :: splitParts seps rest
    else consHead c (splitParts seps rest)

/-- The pairing loop of _split_by_sentences (plugin.py:293-298): walk the
parts two at a time, re-attach each captured separator to the text before
it, and keep the pair when it is non-empty after stripping. -/
def pairUp : List Str → List Str
  | t :: s :: rest =>
    (if strip (t ++ s) = [] then [] else [t ++ s]) ++ pairUp rest
  | _ => []

/-- Handling of the trailing fragment (plugin.py:301-302): kept only when the
parts list has odd length and the fragment is non-empty after stripping. -/
def finalFrag (parts : List Str) : List Str :=
  if parts.length % 2 = 1 then
    match parts.getLast? with
    | some t => if strip t = [] then [] else [t]
    | none => []
  else []

/-- _split_by_sentences (plugin.py:284-304). -/
def split_by_sentences (seps : List Char) (text : Str) : List Str :=
  pairUp (splitParts seps text) ++ finalFrag (splitParts seps text)

/-- The greedy sentence-accumulation loop shared by _sentence_split
(plugin.py:264-270) and the oversized-paragraph branch of _smart_split
(plugin.py:241-247): returns the closed segments and the open accumulator. -/
def packGo (target : Nat) : List Str → Str → List Str → List Str × Str
  | segs, temp, [] => (segs, temp)
  | segs, temp, s :: ss =>
    if (temp ++ s).length ≤ target then packGo target segs (temp ++ s) ss
    else packGo target (segs ++ if temp = [] then [] else [temp]) s ss

/-- _sentence_split (plugin.py:258-275).  The max_segments parameter is
accepted and ignored, as in the source. -/
def sentence_split (content : Str) (target_length max_segments : Nat)
    (seps : List Char) : List Str :=
  let packed := packGo target_length [] [] (split_by_sentences seps content)
  packed.1 ++ (if packed.2 = [] then [] else [packed.2])

/-- The paragraph loop of _smart_split (plugin.py:221-254). -/
def smartGo (target : Nat) (seps : List Char) :
    List Str → Str → List Str → List Str
  | segs, current, [] => segs ++ (if current = [] then [] else [current])
  | segs, current, para :: ps =>
    let p := strip para
    if p = [] then smartGo target seps segs current ps
    else if (current ++ p).length ≤ target then
      smartGo target seps segs (if current = [] then p else current ++ nl2 ++ p) ps
    else
      let segs2 := segs ++ (if current = [] then [] else [current])
      if target < p.length then
        let packed := packGo target segs2 [] (split_by_sentences seps p)
        smartGo target seps packed.1 packed.2 ps
      else smartGo target seps segs2 p ps

/-- _smart_split (plugin.py:211-256).  The max_segments parameter is accepted
and ignored, as in the source. -/
def smart_split (content : Str) (target_length max_segments : Nat)
    (seps : List Char) : List Str :=
  let paragraphs := paraSplit content
  if paragraphs = [] then [content]
  else smartGo target_length seps [] [] paragraphs

/-- _length_split (plugin.py:277-282): the loop for i in range(0, len, t)
emits content[i : i+t]; for t at least 1 the range has
(len + t - 1) / t indices.  For t = 0 Python's range raises ValueError,
which the enclosing try of _split_content_into_segments turns into
[content]; here the t = 0 case yields [] (natural division by zero), which
the min-segments fallback likewise maps to [content] whenever
min_segments is at least 1. -/
def length_split (content : Str) (target_length max_segments : Nat) : List Str :=
  (List.range ((content.length + target_length - 1) / target_length)).map
    (fun i => (content.drop (i * target_length)).take target_length)

inductive Alg where
  | smart : Alg
  | sentence : Alg
  | length : Alg

/-- The configuration values read at plugin.py:178-181. -/
structure SplitConfig where
  segment_length : Nat
  min_segments : Nat
  max_segments : Nat
  algorithm : Alg
  sentence_separators : List Char

/-- The algorithm dispatch (plugin.py:189-194). -/
def raw_split (cfg : SplitConfig) (content : Str) : List Str :=
  match cfg.algorithm with
  | Alg.smart =>
    smart_split content cfg.segment_length cfg.max_segments cfg.sentence_separators
  | Alg.sentence =>
    sentence_split content cfg.segment_length cfg.max_segments cfg.sentence_separators
  | Alg.length => length_split content cfg.segment_length cfg.max_segments

/-- _split_content_into_segments (plugin.py:174-205): short-circuit for short
content, algorithm dispatch, then the segment-count normalization.  The
slice segments[:max_segments-1] is modelled with natural subtraction, which
agrees with Python for max_segments at least 1 (all claims assume a valid
configuration). -/
def split_content_into_segments (cfg : SplitConfig) (content : Str) : List Str :=
  if content.length ≤ cfg.segment_length then [content]
  else
    let segments := raw_split cfg content
    if segments.length < cfg.min_segments then [content]
    else if cfg.max_segments < segments.length then
      segments.take (cfg.max_segments - 1) ++
        [(segments.drop (cfg.max_segments - 1)).flatten]
    else segments

/-! Whitespace bookkeeping: the sequence of non-whitespace characters of a
string, which the segmentation algorithms preserve. -/

def nonSpaces (s : Str) : Str := s.filter notSpace

lemma nonSpaces_append (s t : Str) :
    nonSpaces (s ++ t) = nonSpaces s ++ nonSpaces t := by
  simp [nonSpaces, List.filter_append]

lemma nonSpaces_eq_nil (s : Str) (h : ∀ c ∈ s, isSpace c = true) :
    nonSpaces s = [] := by
  simp only [nonSpaces, List.filter_eq_nil_iff]
  intro c hc
  simp [notSpace, h c hc]

lemma nonSpaces_cons_space {c : Char} (s : Str) (h : isSpace c = true) :
    nonSpaces (c :: s) = nonSpaces s := by
  simp [nonSpaces, List.filter_cons, notSpace, h]

lemma nonSpaces_cons_notSpace {c : Char} (s : Str) (h : isSpace c = false) :
    nonSpaces (c :: s) = c :: nonSpaces s := by
  simp [nonSpaces, List.filter_cons, notSpace, h]

lemma mem_takeWhile_subset {α : Type} {p : α → Bool} {x : α} :
    ∀ {l : List α}, x ∈ l.takeWhile p → x ∈ l := by
  intro l
  induction l with
  | nil => simp [List.takeWhile]
  | cons a l ih =>
    rw [List.takeWhile_cons]
    split
    · intro h
      rcases List.mem_cons.mp h with h | h
      · exact List.mem_cons.mpr (Or.inl h)
      · exact List.mem_cons.mpr (Or.inr (ih h))
    · intro h
      cases h

lemma mem_take_subset {α : Type} {x : α} :
    ∀ {l : List α} {n : Nat}, x ∈ l.take n → x ∈ l := by
  intro l
  induction l with
  | nil => intro n h; simp at h
  | cons a l ih =>
    intro n h
    cases n with
    | zero => simp at h
    | succ n =>
      rcases List.mem_cons.mp h with h | h
      · exact List.mem_cons.mpr (Or.inl h)
      · exact List.mem_cons.mpr (Or.inr (ih h))

lemma nonSpaces_dropWhile (s : Str) :
    nonSpaces (s.dropWhile isSpace) = nonSpaces s := by
  conv_rhs => rw [← List.takeWhile_append_dropWhile (p := isSpace) (l := s)]
  rw [nonSpaces_append,
    nonSpaces_eq_nil (s.takeWhile isSpace) (fun c hc => List.mem_takeWhile_imp hc)]
  simp

lemma nonSpaces_reverse (s : Str) :
    nonSpaces s.reverse = (nonSpaces s).reverse := by
  simp [nonSpaces, List.filter_reverse]

lemma nonSpaces_strip (s : Str) : nonSpaces (strip s) = nonSpaces s := by
  unfold strip
  rw [nonSpaces_reverse, nonSpaces_dropWhile, nonSpaces_reverse,
    List.reverse_reverse, nonSpaces_dropWhile]

lemma all_space_of_strip_eq_nil {s : Str} (h : strip s = []) :
    ∀ c ∈ s, isSpace c = true := by
  unfold strip at h
  rw [List.reverse_eq_nil_iff, List.dropWhile_eq_nil_iff] at h
  intro c hc
  rcases List.mem_append.mp
      ((List.takeWhile_append_dropWhile (p := isSpace) (l := s)) ▸ hc) with h1 | h1
  · exact List.mem_takeWhile_imp h1
  · exact h c (List.mem_reverse.mpr h1)

lemma nonSpaces_of_strip_eq_nil {s : Str} (h : strip s = []) : nonSpaces s = [] :=
  nonSpaces_eq_nil s (all_space_of_strip_eq_nil h)

lemma strip_ne_nil_of_last (t : Str) (c : Char) (h : isSpace c = false) :
    strip (t ++ [c]) ≠ [] := by
  intro hnil
  have := all_space_of_strip_eq_nil hnil c (by simp)
  rw [h] at this
  cases this

/-! Paragraph splitting. -/

lemma paraGo_ne_nil (s : Str) :
    ∀ (acc : List Str) (cur pend : Str), paraGo acc cur pend s ≠ [] := by
  induction s with
  | nil =>
    intro acc cur pend
    simp only [paraGo]
    split <;> simp
  | cons c rest ih =>
    intro acc cur pend
    simp only [paraGo]
    split
    · exact ih _ _ _
    · split
      · exact ih _ _ _
      · exact ih _ _ _

lemma all_space_beforeFirstNl {pend : Str} (hp : ∀ c ∈ pend, isSpace c = true) :
    ∀ c ∈ beforeFirstNl pend, isSpace c = true :=
  fun c hc => hp c (mem_takeWhile_subset hc)

lemma all_space_afterLastNl {pend : Str} (hp : ∀ c ∈ pend, isSpace c = true) :
    ∀ c ∈ afterLastNl pend, isSpace c = true := by
  intro c hc
  unfold afterLastNl at hc
  exact hp c (List.mem_reverse.mp (mem_takeWhile_subset (List.mem_reverse.mp hc)))

lemma nonSpaces_nil : nonSpaces ([] : Str) = [] := rfl

lemma nonSpaces_single {c : Char} (h : isSpace c = false) :
    nonSpaces [c] = [c] := by
  simp [nonSpaces, List.filter_cons, notSpace, h]

lemma paraGo_flatten_nonSpaces (s : Str) :
    ∀ (acc : List Str) (cur pend : Str), (∀ c ∈ pend, isSpace c = true) →
      nonSpaces (paraGo acc cur pend s).flatten =
        nonSpaces acc.flatten ++ nonSpaces cur ++ nonSpaces s := by
  induction s with
  | nil =>
    intro acc cur pend hp
    simp only [paraGo, nonSpaces_nil, List.append_nil]
    split
    · rw [List.flatten_append]
      simp only [List.flatten_cons, List.flatten_nil, List.append_nil]
      simp [nonSpaces_append, nonSpaces_eq_nil _ (all_space_beforeFirstNl hp),
        nonSpaces_eq_nil _ (all_space_afterLastNl hp)]
    · rw [List.flatten_append]
      simp only [List.flatten_cons, List.flatten_nil, List.append_nil]
      simp [nonSpaces_append, nonSpaces_eq_nil _ hp]
  | cons c rest ih =>
    intro acc cur pend hp
    simp only [paraGo]
    split
    · rename_i hc
      rw [ih acc cur (pend ++ [c]) ?hall, nonSpaces_cons_space rest hc]
      case hall =>
        intro x hx
        rcases List.mem_append.mp hx with h1 | h1
        · exact hp x h1
        · simp at h1; subst h1; exact hc
    · rename_i hc
      have hcf : isSpace c = false := by
        cases h : isSpace c
        · rfl
        · exact absurd h hc
      rw [nonSpaces_cons_notSpace rest hcf]
      split
      · rw [ih _ _ [] (by simp), List.flatten_append]
        simp only [List.flatten_cons, List.flatten_nil, List.append_nil]
        simp [nonSpaces_append, nonSpaces_eq_nil _ (all_space_beforeFirstNl hp),
          nonSpaces_eq_nil _ (all_space_afterLastNl hp), nonSpaces_single hcf]
      · rw [ih _ _ [] (by simp)]
        simp [nonSpaces_append, nonSpaces_eq_nil _ hp, nonSpaces_single hcf]

lemma paraSplit_ne_nil (content : Str) : paraSplit content ≠ [] :=
  paraGo_ne_nil content [] [] []

lemma nonSpaces_flatten_paraSplit (content : Str) :
    nonSpaces (paraSplit content).flatten = nonSpaces content := by
  have h := paraGo_flatten_nonSpaces content [] [] [] (by simp)
  simpa [paraSplit, nonSpaces] using h

/-! Sentence tokenization. -/

lemma flatten_consHead (c : Char) (l : List Str) :
    (consHead c l).flatten = c :: l.flatten := by
  cases l with
  | nil => simp [consHead]
  | cons p ps => simp [consHead]

lemma splitParts_flatten (seps : List Char) (s : Str) :
    (splitParts seps s).flatten = s := by
  induction s with
  | nil => simp [splitParts]
  | cons c rest ih =>
    simp only [splitParts]
    split
    · simp [ih]
    · rw [flatten_consHead, ih]

lemma splitParts_ne_nil (seps : List Char) (s : Str) : splitParts seps s ≠ [] := by
  cases s with
  | nil => simp [splitParts]
  | cons c rest =>
    simp only [splitParts]
    split
    · simp
    · cases h : splitParts seps rest with
      | nil => simp [consHead]
      | cons p ps => simp [consHead]

lemma splitParts_length_odd (seps : List Char) (s : Str) :
    (splitParts seps s).length % 2 = 1 := by
  induction s with
  | nil => simp [splitParts]
  | cons c rest ih =>
    simp only [splitParts]
    split
    · simp only [List.length_cons]
      omega
    · cases h : splitParts seps rest with
      | nil => exact absurd h (splitParts_ne_nil seps rest)
      | cons p ps =>
        rw [h] at ih
        simp only [consHead, List.length_cons] at ih ⊢
        omega

lemma finalFrag_cons_cons (t s r : Str) (rs : List Str) :
    finalFrag (t :: s :: r :: rs) = finalFrag (r :: rs) := by
  by_cases h : (r :: rs).length % 2 = 1
  · have h2 : (t :: s :: r :: rs).length % 2 = 1 := by
      simp only [List.length_cons] at h ⊢
      omega
    unfold finalFrag
    rw [if_pos h, if_pos h2]
    simp only [List.getLast?_cons_cons]
  · have h2 : ¬ (t :: s :: r :: rs).length % 2 = 1 := by
      simp only [List.length_cons] at h ⊢
      omega
    unfold finalFrag
    rw [if_neg h, if_neg h2]

lemma pair_final_flatten_nonSpaces :
    ∀ parts : List Str, parts.length % 2 = 1 →
      nonSpaces (pairUp parts ++ finalFrag parts).flatten = nonSpaces parts.flatten
  | [], hodd => by simp at hodd
  | [t], _ => by
    by_cases hstrip : strip t = []
    · simp [pairUp, finalFrag, hstrip, nonSpaces_of_strip_eq_nil hstrip,
        nonSpaces_nil]
    · simp [pairUp, finalFrag, hstrip]
  | t :: s :: [], hodd => by simp at hodd
  | t :: s :: r :: rs, hodd => by
    have hodd2 : (r :: rs).length % 2 = 1 := by
      simp only [List.length_cons] at hodd ⊢
      omega
    have ih := pair_final_flatten_nonSpaces (r :: rs) hodd2
    show nonSpaces
        (((if strip (t ++ s) = [] then [] else [t ++ s]) ++ pairUp (r :: rs)) ++
          finalFrag (t :: s :: r :: rs)).flatten = _
    rw [finalFrag_cons_cons, List.append_assoc, List.flatten_append]
    rw [nonSpaces_append, ih]
    split
    · rename_i hstrip
      have h0 := nonSpaces_of_strip_eq_nil hstrip
      rw [nonSpaces_append] at h0
      simp only [List.flatten_nil, nonSpaces_nil, List.flatten_cons]
      rw [nonSpaces_append, nonSpaces_append]
      rw [List.append_eq_nil] at h0
      simp [nonSpaces_append, h0.1, h0.2]
    · simp only [List.flatten_cons, List.flatten_nil, List.append_nil]
      rw [nonSpaces_append, nonSpaces_append, nonSpaces_append]
      simp [nonSpaces_append, List.append_assoc]

lemma nonSpaces_flatten_split_by_sentences (seps : List Char) (text : Str) :
    nonSpaces (split_by_sentences seps text).flatten = nonSpaces text := by
  unfold split_by_sentences
  rw [pair_final_flatten_nonSpaces _ (splitParts_length_odd seps text),
    splitParts_flatten]

/-! Greedy accumulation. -/

lemma packGo_flatten (target : Nat) :
    ∀ (ss segs : List Str) (temp : Str),
      (packGo target segs temp ss).1.flatten ++ (packGo target segs temp ss).2 =
        segs.flatten ++ temp ++ ss.flatten := by
  intro ss
  induction ss with
  | nil => intro segs temp; simp [packGo]
  | cons s ss ih =>
    intro segs temp
    simp only [packGo]
    split
    · rw [ih]
      simp [List.append_assoc]
    · rw [ih]
      by_cases htemp : temp = []
      · simp [htemp, List.flatten_append, List.append_assoc]
      · simp [htemp, List.flatten_append, List.append_assoc]

lemma packGo_fst_ne_nil (target : Nat) :
    ∀ (ss segs : List Str) (temp : Str), (∀ x ∈ segs, x ≠ []) →
      ∀ x ∈ (packGo target segs temp ss).1, x ≠ [] := by
  intro ss
  induction ss with
  | nil => intro segs temp hsegs; exact hsegs
  | cons s ss ih =>
    intro segs temp hsegs
    simp only [packGo]
    split
    · exact ih segs (temp ++ s) hsegs
    · refine ih _ s ?_
      intro x hx
      rcases List.mem_append.mp hx with h1 | h1
      · exact hsegs x h1
      · by_cases htemp : temp = []
        · simp [htemp] at h1
        · simp [htemp] at h1
          subst h1
          exact htemp

lemma packGo_inv (target : Nat) (P Q : Str → Prop)
    (hQlen : ∀ x : Str, x.length ≤ target → Q x) (hPQ : ∀ x, P x → Q x) :
    ∀ (ss segs : List Str) (temp : Str),
      (∀ x ∈ segs, Q x) → (temp.length ≤ target ∨ P temp) → (∀ s ∈ ss, P s) →
      (∀ x ∈ (packGo target segs temp ss).1, Q x) ∧
        ((packGo target segs temp ss).2.length ≤ target ∨
          P (packGo target segs temp ss).2) := by
  intro ss
  induction ss with
  | nil => intro segs temp hsegs htemp _; exact ⟨hsegs, htemp⟩
  | cons s ss ih =>
    intro segs temp hsegs htemp hss
    simp only [packGo]
    split
    · rename_i hfit
      refine ih segs (temp ++ s) hsegs (Or.inl ?_) (fun x hx => hss x (by simp [hx]))
      simpa using hfit
    · refine ih _ s ?_ (Or.inr (hss s (by simp))) (fun x hx => hss x (by simp [hx]))
      intro x hx
      rcases List.mem_append.mp hx with h1 | h1
      · exact hsegs x h1
      · by_cases hT : temp = []
        · simp [hT] at h1
        · simp [hT] at h1
          subst h1
          rcases htemp with h2 | h2
          · exact hQlen x h2
          · exact hPQ x h2

/-! The smart paragraph loop. -/

lemma nonSpaces_nl2 : nonSpaces nl2 = [] := by decide

lemma smartGo_flatten_nonSpaces (target : Nat) (seps : List Char) :
    ∀ (ps segs : List Str) (current : Str),
      nonSpaces (smartGo target seps segs current ps).flatten =
        nonSpaces segs.flatten ++ nonSpaces current ++ nonSpaces ps.flatten := by
  intro ps
  induction ps with
  | nil =>
    intro segs current
    simp only [smartGo]
    by_cases h : current = []
    · simp [h, nonSpaces_nil]
    · simp [h, List.flatten_append, nonSpaces_append, nonSpaces_nil]
  | cons para ps ih =>
    intro segs current
    simp only [smartGo]
    split
    · rename_i hp
      rw [ih segs current]
      have : nonSpaces para = [] := by
        rw [← nonSpaces_strip, hp, nonSpaces_nil]
      simp [nonSpaces_append, this]
    · rename_i hp
      split
      · rw [ih]
        by_cases hcur : current = []
        · simp [hcur, nonSpaces_append, nonSpaces_strip, nonSpaces_nil]
        · simp [hcur, nonSpaces_append, nonSpaces_nl2, nonSpaces_strip,
            List.append_assoc]
      · split
        · rw [ih]
          have key := congrArg nonSpaces
            (packGo_flatten target (split_by_sentences seps (strip para))
              (segs ++ if current = [] then [] else [current]) [])
          simp only [List.append_nil, nonSpaces_append,
            nonSpaces_flatten_split_by_sentences] at key
          rw [key]
          by_cases hcur : current = []
          · simp [hcur, nonSpaces_append, nonSpaces_strip, nonSpaces_nil,
              List.append_assoc]
          · simp [hcur, List.flatten_append, nonSpaces_append,
              nonSpaces_strip, List.append_assoc]
        · rw [ih]
          by_cases hcur : current = []
          · simp [hcur, nonSpaces_append, nonSpaces_strip, nonSpaces_nil,
              List.append_assoc]
          · simp [hcur, List.flatten_append, nonSpaces_append,
              nonSpaces_strip, List.append_assoc]

lemma smartGo_ne_nil (target : Nat) (seps : List Char) :
    ∀ (ps segs : List Str) (current : Str), (∀ x ∈ segs, x ≠ []) →
      ∀ x ∈ smartGo target seps segs current ps, x ≠ [] := by
  intro ps
  induction ps with
  | nil =>
    intro segs current hsegs x hx
    simp only [smartGo] at hx
    rcases List.mem_append.mp hx with h1 | h1
    · exact hsegs x h1
    · by_cases hcur : current = []
      · simp [hcur] at h1
      · simp [hcur] at h1
        subst h1
        exact hcur
  | cons para ps ih =>
    intro segs current hsegs
    simp only [smartGo]
    split
    · exact ih segs current hsegs
    · split
      · exact ih segs _ hsegs
      · have hsegs2 : ∀ x ∈ (segs ++ if current = [] then [] else [current]),
            x ≠ [] := by
          intro x hx
          rcases List.mem_append.mp hx with h1 | h1
          · exact hsegs x h1
          · by_cases hcur : current = []
            · simp [hcur] at h1
            · simp [hcur] at h1
              subst h1
              exact hcur
        split
        · exact ih _ _ (packGo_fst_ne_nil target _ _ [] hsegs2)
        · exact ih _ _ hsegs2

/-! The fixed-width algorithm. -/

lemma le_div_mul_self (L t : Nat) (ht : 1 ≤ t) : L ≤ ((L + t - 1) / t) * t := by
  have key := Nat.div_add_mod (L + t - 1) t
  have hm : (L + t - 1) % t < t := Nat.mod_lt _ ht
  rw [Nat.mul_comm]
  generalize hk : t * ((L + t - 1) / t) = k at key ⊢
  omega

lemma mul_lt_of_lt_div (i L t : Nat) (ht : 1 ≤ t) (hi : i < (L + t - 1) / t) :
    i * t < L := by
  have h2 : (i + 1) * t ≤ ((L + t - 1) / t) * t :=
    Nat.mul_le_mul_right t (Nat.succ_le_of_lt hi)
  have h3 : ((L + t - 1) / t) * t ≤ L + t - 1 := Nat.div_mul_le_self _ _
  rw [Nat.succ_mul] at h2
  generalize hk : i * t = k at h2 ⊢
  generalize hk2 : ((L + t - 1) / t) * t = k2 at h2 h3
  omega

lemma chunk_full (i L t : Nat) (ht : 1 ≤ t) (hi : i < (L + t - 1) / t - 1) :
    i * t + t ≤ L := by
  have h := mul_lt_of_lt_div (i + 1) L t ht (by omega)
  rw [Nat.succ_mul] at h
  generalize hk : i * t = k at h ⊢
  omega

lemma length_split_flatten (s : Str) (t m : Nat) (ht : 1 ≤ t) :
    (length_split s t m).flatten = s := by
  unfold length_split
  suffices h : ∀ n : Nat, ((List.range n).map
      (fun i => (s.drop (i * t)).take t)).flatten = s.take (n * t) by
    rw [h]
    exact List.take_of_length_le (le_div_mul_self s.length t ht)
  intro n
  induction n with
  | zero => simp
  | succ n ih =>
    rw [List.range_succ, List.map_append, List.flatten_append, ih]
    simp only [List.map_cons, List.map_nil, List.flatten_cons, List.flatten_nil,
      List.append_nil]
    rw [Nat.succ_mul, List.take_add]

lemma length_split_dropLast (s : Str) (t m : Nat) (ht : 1 ≤ t) :
    ∀ x ∈ (length_split s t m).dropLast, x.length = t := by
  unfold length_split
  have hdl : ∀ d : Nat,
      ((List.range d).map (fun i => (s.drop (i * t)).take t)).dropLast
        = (List.range (d - 1)).map (fun i => (s.drop (i * t)).take t) := by
    intro d
    cases d with
    | zero => simp
    | succ n =>
      rw [List.range_succ, List.map_append]
      simp [List.dropLast_concat]
  rw [hdl]
  intro x hx
  rcases List.mem_map.mp hx with ⟨i, hi, rfl⟩
  rw [List.mem_range] at hi
  have hfull := chunk_full i s.length t ht hi
  rw [List.length_take, List.length_drop]
  refine Nat.min_eq_left ?_
  generalize hk : i * t = k at hfull ⊢
  omega

lemma length_split_mem_ne_nil (s : Str) (t m : Nat) :
    ∀ x ∈ length_split s t m, x ≠ [] := by
  unfold length_split
  intro x hx
  rcases List.mem_map.mp hx with ⟨i, hi, rfl⟩
  rw [List.mem_range] at hi
  rcases Nat.eq_zero_or_pos t with ht | ht
  · subst ht
    simp at hi
  · have hlt := mul_lt_of_lt_div i s.length t ht hi
    intro hnil
    rw [List.take_eq_nil_iff] at hnil
    rcases hnil with h | h
    · omega
    · rw [List.drop_eq_nil_iff] at h
      generalize hk : i * t = k at hlt h
      omega

/-! Assembly: the three algorithms and the normalization pass. -/

lemma sentence_split_flatten_nonSpaces (content : Str) (t m : Nat)
    (seps : List Char) :
    nonSpaces (sentence_split content t m seps).flatten = nonSpaces content := by
  simp only [sentence_split]
  have key := packGo_flatten t (split_by_sentences seps content) [] []
  simp only [List.flatten_nil, List.nil_append, List.append_nil] at key
  rw [List.flatten_append, nonSpaces_append]
  by_cases h : (packGo t [] [] (split_by_sentences seps content)).2 = []
  · rw [if_pos h]
    rw [h, List.append_nil] at key
    simp [key, nonSpaces_flatten_split_by_sentences, nonSpaces_nil]
  · rw [if_neg h]
    simp only [List.flatten_cons, List.flatten_nil, List.append_nil]
    rw [← nonSpaces_append, key, nonSpaces_flatten_split_by_sentences]

lemma sentence_split_mem_ne_nil (content : Str) (t m : Nat) (seps : List Char) :
    ∀ x ∈ sentence_split content t m seps, x ≠ [] := by
  simp only [sentence_split]
  intro x hx
  rcases List.mem_append.mp hx with h1 | h1
  · exact packGo_fst_ne_nil t _ [] [] (by simp) x h1
  · by_cases h : (packGo t [] [] (split_by_sentences seps content)).2 = []
    · simp [h] at h1
    · simp [h] at h1
      subst h1
      exact h

lemma smart_split_flatten_nonSpaces (content : Str) (t m : Nat)
    (seps : List Char) :
    nonSpaces (smart_split content t m seps).flatten = nonSpaces content := by
  simp only [smart_split]
  rw [if_neg (paraSplit_ne_nil content), smartGo_flatten_nonSpaces]
  simp [nonSpaces_nil, nonSpaces_flatten_paraSplit]

lemma smart_split_mem_ne_nil (content : Str) (t m : Nat) (seps : List Char) :
    ∀ x ∈ smart_split content t m seps, x ≠ [] := by
  simp only [smart_split]
  rw [if_neg (paraSplit_ne_nil content)]
  exact smartGo_ne_nil t seps (paraSplit content) [] [] (by simp)

lemma raw_split_mem_ne_nil (cfg : SplitConfig) (content : Str) :
    ∀ x ∈ raw_split cfg content, x ≠ [] := by
  intro x hx
  unfold raw_split at hx
  split at hx
  · exact smart_split_mem_ne_nil _ _ _ _ x hx
  · exact sentence_split_mem_ne_nil _ _ _ _ x hx
  · exact length_split_mem_ne_nil _ _ _ x hx

lemma raw_split_flatten_nonSpaces (cfg : SplitConfig) (content : Str)
    (ht : cfg.algorithm = Alg.length → 1 ≤ cfg.segment_length) :
    nonSpaces (raw_split cfg content).flatten = nonSpaces content := by
  unfold raw_split
  split
  · exact smart_split_flatten_nonSpaces _ _ _ _
  · exact sentence_split_flatten_nonSpaces _ _ _ _
  · rename_i halg
    rw [length_split_flatten _ _ _ (ht halg)]

lemma flatten_take_drop_merge (l : List Str) (k : Nat) :
    (l.take k ++ [(l.drop k).flatten]).flatten = l.flatten := by
  rw [List.flatten_append]
  simp only [List.flatten_cons, List.flatten_nil, List.append_nil]
  rw [← List.flatten_append, List.take_append_drop]

lemma flatten_ne_nil {l : List Str} (hne : l ≠ []) (h : ∀ x ∈ l, x ≠ []) :
    l.flatten ≠ [] := by
  cases l with
  | nil => exact absurd rfl hne
  | cons a as =>
    simp only [List.flatten_cons]
    intro hcontra
    rw [List.append_eq_nil] at hcontra
    exact h a (by simp) hcontra.1

/-! Claim theorems. -/

/-- C1: for every content string and every SplitConfig with
len(content) <= targetLength, split returns exactly [content], regardless of
the configured algorithm (plugin.py:183-185). -/
theorem c1_short_circuit (cfg : SplitConfig) (content : Str)
    (h : content.length ≤ cfg.segment_length) :
    split_content_into_segments cfg content = [content] := by
  simp only [split_content_into_segments]
  rw [if_pos h]

theorem c1_short_circuit_witness :
    (['a', 'b', 'c'] : Str).length ≤ 5 ∧
      split_content_into_segments ⟨5, 1, 4, Alg.smart, defaultSeparators⟩
        ['a', 'b', 'c'] = [['a', 'b', 'c']] :=
  ⟨by decide, c1_short_circuit ⟨5, 1, 4, Alg.smart, defaultSeparators⟩ _ (by decide)⟩

/-- C2: for every content string and every SplitConfig with
1 <= minSegments <= maxSegments, the returned sequence has length at most
maxSegments (plugin.py:196-205). -/
theorem c2_max_segments_bound (cfg : SplitConfig) (content : Str)
    (hmin : 1 ≤ cfg.min_segments) (hmm : cfg.min_segments ≤ cfg.max_segments) :
    (split_content_into_segments cfg content).length ≤ cfg.max_segments := by
  simp only [split_content_into_segments]
  by_cases h1 : content.length ≤ cfg.segment_length
  · rw [if_pos h1]
    simp only [List.length_cons, List.length_nil]
    omega
  · rw [if_neg h1]
    by_cases h2 : (raw_split cfg content).length < cfg.min_segments
    · rw [if_pos h2]
      simp only [List.length_cons, List.length_nil]
      omega
    · rw [if_neg h2]
      by_cases h3 : cfg.max_segments < (raw_split cfg content).length
      · rw [if_pos h3]
        rw [List.length_append, List.length_take]
        simp only [List.length_cons, List.length_nil]
        omega
      · rw [if_neg h3]
        omega

theorem c2_max_segments_bound_witness :
    1 ≤ 1 ∧ 1 ≤ 4 ∧
      (split_content_into_segments ⟨1, 1, 4, Alg.sentence, defaultSeparators⟩
        ['a', 'b']).length ≤ 4 :=
  ⟨by decide, by decide,
    c2_max_segments_bound ⟨1, 1, 4, Alg.sentence, defaultSeparators⟩ ['a', 'b']
      (by decide) (by decide)⟩

/-- C3: whenever the splitting path runs (content longer than targetLength,
valid 1 <= minSegments <= maxSegments) and the raw algorithmic split yields
more than maxSegments segments, split returns the first maxSegments - 1 raw
segments unchanged followed by the direct concatenation (no inserted
separator) of the remaining raw segments, exactly maxSegments segments in
total (plugin.py:200-202). -/
theorem c3_tail_merge (cfg : SplitConfig) (content : Str)
    (hlen : cfg.segment_length < content.length)
    (hmin : 1 ≤ cfg.min_segments) (hmm : cfg.min_segments ≤ cfg.max_segments)
    (hover : cfg.max_segments < (raw_split cfg content).length) :
    split_content_into_segments cfg content =
      (raw_split cfg content).take (cfg.max_segments - 1) ++
        [((raw_split cfg content).drop (cfg.max_segments - 1)).flatten] ∧
      (split_content_into_segments cfg content).length = cfg.max_segments := by
  have h1 : ¬ content.length ≤ cfg.segment_length := by omega
  have h2 : ¬ (raw_split cfg content).length < cfg.min_segments := by omega
  constructor
  · simp only [split_content_into_segments]
    rw [if_neg h1, if_neg h2, if_pos hover]
  · simp only [split_content_into_segments]
    rw [if_neg h1, if_neg h2, if_pos hover]
    rw [List.length_append, List.length_take]
    simp only [List.length_cons, List.length_nil]
    omega

theorem c3_tail_merge_witness :
    1 < (['a', 'b', 'c', 'd'] : Str).length ∧ 1 ≤ 1 ∧ 1 ≤ 2 ∧
      2 < (raw_split ⟨1, 1, 2, Alg.length, defaultSeparators⟩
        ['a', 'b', 'c', 'd']).length ∧
      (split_content_into_segments ⟨1, 1, 2, Alg.length, defaultSeparators⟩
          ['a', 'b', 'c', 'd'] =
        (raw_split ⟨1, 1, 2, Alg.length, defaultSeparators⟩
            ['a', 'b', 'c', 'd']).take 1 ++
          [((raw_split ⟨1, 1, 2, Alg.length, defaultSeparators⟩
            ['a', 'b', 'c', 'd']).drop 1).flatten] ∧
        (split_content_into_segments ⟨1, 1, 2, Alg.length, defaultSeparators⟩
          ['a', 'b', 'c', 'd']).length = 2) :=
  ⟨by decide, by decide, by decide, by decide,
    c3_tail_merge ⟨1, 1, 2, Alg.length, defaultSeparators⟩ ['a', 'b', 'c', 'd']
      (by decide) (by decide) (by decide) (by decide)⟩

/-- C4: evaluation of the code at the spec's Scenario A input.  The code
merges the overflow segments by direct concatenation (plugin.py:202), so the
result is [A*10, B*10 ++ C*10]; the claimed output [A*10, B*10 ++ two
newlines ++ C*10], asserted by the spec and by the repository's own test
test_segment_merge_preserves_newlines, differs from what the code returns. -/
theorem c4_scenario_a_eval :
    split_content_into_segments ⟨10, 1, 2, Alg.length, defaultSeparators⟩
        (List.replicate 10 'A' ++ List.replicate 10 'B' ++ List.replicate 10 'C') =
      [List.replicate 10 'A', List.replicate 10 'B' ++ List.replicate 10 'C'] ∧
      split_content_into_segments ⟨10, 1, 2, Alg.length, defaultSeparators⟩
          (List.replicate 10 'A' ++ List.replicate 10 'B' ++ List.replicate 10 'C') ≠
        [List.replicate 10 'A',
          List.replicate 10 'B' ++ nl2 ++ List.replicate 10 'C'] := by
  constructor
  · decide
  · decide

/-- C5: for content longer than targetLength, if the raw algorithmic split
yields fewer than minSegments segments, split discards it and returns
[content] (plugin.py:197-199). -/
theorem c5_min_fallback (cfg : SplitConfig) (content : Str)
    (hlen : cfg.segment_length < content.length)
    (hunder : (raw_split cfg content).length < cfg.min_segments) :
    split_content_into_segments cfg content = [content] := by
  have h1 : ¬ content.length ≤ cfg.segment_length := by omega
  simp only [split_content_into_segments]
  rw [if_neg h1, if_pos hunder]

theorem c5_min_fallback_witness :
    3 < (['a', 'b', 'c', 'd', 'e'] : Str).length ∧
      (raw_split ⟨3, 3, 3, Alg.length, defaultSeparators⟩
        ['a', 'b', 'c', 'd', 'e']).length < 3 ∧
      split_content_into_segments ⟨3, 3, 3, Alg.length, defaultSeparators⟩
        ['a', 'b', 'c', 'd', 'e'] = [['a', 'b', 'c', 'd', 'e']] :=
  ⟨by decide, by decide,
    c5_min_fallback ⟨3, 3, 3, Alg.length, defaultSeparators⟩
      ['a', 'b', 'c', 'd', 'e'] (by decide) (by decide)⟩

/-- C6: for algorithm=length with a valid configuration (targetLength >= 1,
1 <= minSegments <= maxSegments), concatenating the returned segments
reproduces content exactly, and every returned segment except possibly the
last has length exactly targetLength (plugin.py:277-282 and 196-202). -/
theorem c6_length_exactness (cfg : SplitConfig) (content : Str)
    (halg : cfg.algorithm = Alg.length)
    (ht : 1 ≤ cfg.segment_length)
    (hmin : 1 ≤ cfg.min_segments) (hmm : cfg.min_segments ≤ cfg.max_segments) :
    (split_content_into_segments cfg content).flatten = content ∧
      ∀ x ∈ (split_content_into_segments cfg content).dropLast,
        x.length = cfg.segment_length := by
  have hraw : raw_split cfg content
      = length_split content cfg.segment_length cfg.max_segments := by
    unfold raw_split
    rw [halg]
  simp only [split_content_into_segments]
  by_cases h1 : content.length ≤ cfg.segment_length
  · rw [if_pos h1]
    constructor
    · simp
    · simp
  · rw [if_neg h1, hraw]
    by_cases h2 : (length_split content cfg.segment_length
        cfg.max_segments).length < cfg.min_segments
    · rw [if_pos h2]
      constructor
      · simp
      · simp
    · rw [if_neg h2]
      by_cases h3 : cfg.max_segments < (length_split content cfg.segment_length
          cfg.max_segments).length
      · rw [if_pos h3]
        constructor
        · rw [flatten_take_drop_merge]
          exact length_split_flatten content _ _ ht
        · rw [List.dropLast_concat]
          intro x hx
          have heq : (length_split content cfg.segment_length
                cfg.max_segments).take (cfg.max_segments - 1)
              = ((length_split content cfg.segment_length
                  cfg.max_segments).take ((length_split content
                  cfg.segment_length cfg.max_segments).length - 1)).take
                  (cfg.max_segments - 1) := by
            rw [List.take_take, Nat.min_eq_left (by omega)]
          rw [heq] at hx
          refine length_split_dropLast content cfg.segment_length
            cfg.max_segments ht x ?_
          rw [List.dropLast_eq_take]
          exact mem_take_subset hx
      · rw [if_neg h3]
        exact ⟨length_split_flatten content _ _ ht,
          length_split_dropLast content _ _ ht⟩

theorem c6_length_exactness_witness :
    (⟨2, 1, 9, Alg.length, defaultSeparators⟩ : SplitConfig).algorithm
        = Alg.length ∧ 1 ≤ 2 ∧ 1 ≤ 1 ∧ 1 ≤ 9 ∧
      ((split_content_into_segments ⟨2, 1, 9, Alg.length, defaultSeparators⟩
          ['a', 'b', 'c', 'd', 'e']).flatten = ['a', 'b', 'c', 'd', 'e'] ∧
        ∀ x ∈ (split_content_into_segments
            ⟨2, 1, 9, Alg.length, defaultSeparators⟩
            ['a', 'b', 'c', 'd', 'e']).dropLast, x.length = 2) :=
  ⟨rfl, by decide, by decide, by decide,
    c6_length_exactness ⟨2, 1, 9, Alg.length, defaultSeparators⟩
      ['a', 'b', 'c', 'd', 'e'] rfl (by decide) (by decide) (by decide)⟩

/-- C7 counterexample: on content a-newline-newline-newline-b with the smart
algorithm (targetLength 3, minSegments 1, maxSegments 4), the paragraph
regex consumes all three newlines and the two paragraphs are re-joined with
exactly two newlines, so a newline character of the original content is
dropped: the original content is not a subsequence of the concatenated
output, under any reading of "ignoring inserted joiners". -/
theorem c7_no_content_loss_counterexample :
    split_content_into_segments ⟨3, 1, 4, Alg.smart, defaultSeparators⟩
        ['a', '\n', '\n', '\n', 'b'] = [['a', '\n', '\n', 'b']] ∧
      ¬ List.Sublist (['a', '\n', '\n', '\n', 'b'] : Str)
        (split_content_into_segments ⟨3, 1, 4, Alg.smart, defaultSeparators⟩
          ['a', '\n', '\n', '\n', 'b']).flatten := by
  constructor
  · decide
  · decide

/-- C7 amended: for every algorithm and every valid configuration
(1 <= minSegments <= maxSegments), the concatenation of the returned
segments preserves exactly the sequence of non-whitespace characters of the
original content, in order; whitespace characters may be dropped or
re-joined by the paragraph/sentence passes. -/
theorem c7_nonspace_preservation (cfg : SplitConfig) (content : Str)
    (hmin : 1 ≤ cfg.min_segments) (hmm : cfg.min_segments ≤ cfg.max_segments) :
    nonSpaces (split_content_into_segments cfg content).flatten
      = nonSpaces content := by
  simp only [split_content_into_segments]
  by_cases h1 : content.length ≤ cfg.segment_length
  · rw [if_pos h1]
    simp
  · rw [if_neg h1]
    by_cases h2 : (raw_split cfg content).length < cfg.min_segments
    · rw [if_pos h2]
      simp
    · rw [if_neg h2]
      have ht : cfg.algorithm = Alg.length → 1 ≤ cfg.segment_length := by
        intro halg
        by_contra h0
        have ht0 : cfg.segment_length = 0 := by omega
        have hrawnil : raw_split cfg content = [] := by
          unfold raw_split
          rw [halg, ht0]
          unfold length_split
          simp
        rw [hrawnil] at h2
        simp at h2
        omega
      have hkey := raw_split_flatten_nonSpaces cfg content ht
      by_cases h3 : cfg.max_segments < (raw_split cfg content).length
      · rw [if_pos h3, flatten_take_drop_merge]
        exact hkey
      · rw [if_neg h3]
        exact hkey

theorem c7_nonspace_preservation_witness :
    1 ≤ 1 ∧ 1 ≤ 4 ∧
      nonSpaces (split_content_into_segments
          ⟨3, 1, 4, Alg.smart, defaultSeparators⟩
          ['a', '\n', '\n', '\n', 'b']).flatten
        = nonSpaces ['a', '\n', '\n', '\n', 'b'] :=
  ⟨by decide, by decide,
    c7_nonspace_preservation ⟨3, 1, 4, Alg.smart, defaultSeparators⟩
      ['a', '\n', '\n', '\n', 'b'] (by decide) (by decide)⟩

/-- C8 counterexample: with the length algorithm (targetLength 2,
minSegments 1, maxSegments 4) on content a-space-space-space-space-b, the
middle fixed-width chunk consists of two spaces, so a returned segment is
empty after trimming while the configuration is fully valid. -/
theorem c8_nonempty_after_trim_counterexample :
    split_content_into_segments ⟨2, 1, 4, Alg.length, defaultSeparators⟩
        ['a', ' ', ' ', ' ', ' ', 'b'] =
      [['a', ' '], [' ', ' '], [' ', 'b']] ∧
      ¬ ∀ x ∈ split_content_into_segments
          ⟨2, 1, 4, Alg.length, defaultSeparators⟩
          ['a', ' ', ' ', ' ', ' ', 'b'], strip x ≠ [] := by
  constructor
  · decide
  · decide

lemma mem_drop_subset {α : Type} {x : α} :
    ∀ {l : List α} {n : Nat}, x ∈ l.drop n → x ∈ l := by
  intro l
  induction l with
  | nil => intro n h; simp at h
  | cons a l ih =>
    intro n h
    cases n with
    | zero => exact h
    | succ n => exact List.mem_cons.mpr (Or.inr (ih h))

/-- C8 amended: for non-empty content and a valid configuration
(1 <= minSegments <= maxSegments), every returned segment is a non-empty
string; segments may however consist entirely of whitespace, so
non-emptiness after trimming does not hold. -/
theorem c8_nonempty_segments (cfg : SplitConfig) (content : Str)
    (hne : content ≠ [])
    (hmin : 1 ≤ cfg.min_segments) (hmm : cfg.min_segments ≤ cfg.max_segments) :
    ∀ x ∈ split_content_into_segments cfg content, x ≠ [] := by
  simp only [split_content_into_segments]
  by_cases h1 : content.length ≤ cfg.segment_length
  · rw [if_pos h1]
    intro x hx
    simp at hx
    subst hx
    exact hne
  · rw [if_neg h1]
    by_cases h2 : (raw_split cfg content).length < cfg.min_segments
    · rw [if_pos h2]
      intro x hx
      simp at hx
      subst hx
      exact hne
    · rw [if_neg h2]
      by_cases h3 : cfg.max_segments < (raw_split cfg content).length
      · rw [if_pos h3]
        intro x hx
        rcases List.mem_append.mp hx with hx | hx
        · exact raw_split_mem_ne_nil cfg content x (mem_take_subset hx)
        · simp at hx
          subst hx
          refine flatten_ne_nil ?_ ?_
          · intro hdrop
            rw [List.drop_eq_nil_iff] at hdrop
            omega
          · intro y hy
            exact raw_split_mem_ne_nil cfg content y (mem_drop_subset hy)
      · rw [if_neg h3]
        exact raw_split_mem_ne_nil cfg content

theorem c8_nonempty_segments_witness :
    (['a', ' ', ' ', ' ', ' ', 'b'] : Str) ≠ [] ∧ 1 ≤ 1 ∧ 1 ≤ 4 ∧
      ∀ x ∈ split_content_into_segments
          ⟨2, 1, 4, Alg.length, defaultSeparators⟩
          ['a', ' ', ' ', ' ', ' ', 'b'], x ≠ [] :=
  ⟨by decide, by decide, by decide,
    c8_nonempty_segments ⟨2, 1, 4, Alg.length, defaultSeparators⟩
      ['a', ' ', ' ', ' ', ' ', 'b'] (by decide) (by decide) (by decide)⟩

lemma smartGo_inv (target : Nat) (seps : List Char) (R : Str → Prop)
    (paras : List Str)
    (hR : ∀ p ∈ paras, ∀ x ∈ split_by_sentences seps (strip p), R x) :
    ∀ ps : List Str, (∀ p ∈ ps, p ∈ paras) →
      ∀ (segs : List Str) (current : Str),
        (∀ x ∈ segs, x.length ≤ target + 2 ∨ R x) →
        (current.length ≤ target + 2 ∨ R current) →
        ∀ x ∈ smartGo target seps segs current ps,
          x.length ≤ target + 2 ∨ R x := by
  intro ps
  induction ps with
  | nil =>
    intro _ segs current hsegs hcur x hx
    simp only [smartGo] at hx
    rcases List.mem_append.mp hx with h1 | h1
    · exact hsegs x h1
    · by_cases hc : current = []
      · simp [hc] at h1
      · simp [hc] at h1
        subst h1
        exact hcur
  | cons para ps ih =>
    intro hps segs current hsegs hcur
    have hpara : para ∈ paras := hps para (by simp)
    have hps2 : ∀ p ∈ ps, p ∈ paras := fun p hp => hps p (by simp [hp])
    simp only [smartGo]
    split
    · exact ih hps2 segs current hsegs hcur
    · split
      · rename_i hfit
        refine ih hps2 segs _ hsegs (Or.inl ?_)
        rw [List.length_append] at hfit
        by_cases hc : current = []
        · simp [hc]
          omega
        · simp only [hc, if_neg]
          simp [List.length_append, nl2]
          omega
      · have hsegs2 : ∀ x ∈ (segs ++ if current = [] then [] else [current]),
            x.length ≤ target + 2 ∨ R x := by
          intro x hx
          rcases List.mem_append.mp hx with h1 | h1
          · exact hsegs x h1
          · by_cases hc : current = []
            · simp [hc] at h1
            · simp [hc] at h1
              subst h1
              exact hcur
        split
        · have hpack := packGo_inv target
            (fun x => x ∈ split_by_sentences seps (strip para))
            (fun x => x.length ≤ target + 2 ∨ R x)
            (fun x h => Or.inl (by omega))
            (fun x h => Or.inr (hR para hpara x h))
            (split_by_sentences seps (strip para))
            (segs ++ if current = [] then [] else [current]) []
            hsegs2 (Or.inl (by simp)) (fun s hs => hs)
          refine ih hps2 _ _ hpack.1 ?_
          rcases hpack.2 with h | h
          · exact Or.inl (by omega)
          · exact Or.inr (hR para hpara _ h)
        · rename_i hbig
          refine ih hps2 _ _ hsegs2 (Or.inl ?_)
          omega

/-- C9 counterexample: with targetLength 6 the two paragraphs aaa and bbb
satisfy the fit test (3 + 3 <= 6, the joiner is not counted), so the raw
smart split returns the single accumulated segment aaa-newline-newline-bbb
of total length 8, which exceeds targetLength. -/
theorem c9_smart_fit_counterexample :
    smart_split ['a', 'a', 'a', '\n', '\n', 'b', 'b', 'b'] 6 10
        defaultSeparators = [['a', 'a', 'a'] ++ nl2 ++ ['b', 'b', 'b']] ∧
      6 < (['a', 'a', 'a'] ++ nl2 ++ ['b', 'b', 'b'] : Str).length := by
  constructor
  · decide
  · decide

/-- C9 amended: the smart fit test (plugin.py:227) compares
len(current) + len(paragraph) against targetLength without counting the
two-newline joiner inserted afterwards, so an accumulated segment may exceed
targetLength by up to 2: every raw smart segment either has length at most
targetLength + 2 or is a single oversized sentence of one of the content's
stripped paragraphs. -/
theorem c9_smart_accumulation_bound (target max_segments : Nat)
    (seps : List Char) (content : Str) :
    ∀ x ∈ smart_split content target max_segments seps,
      x.length ≤ target + 2 ∨
        ∃ p ∈ paraSplit content, x ∈ split_by_sentences seps (strip p) := by
  simp only [smart_split]
  rw [if_neg (paraSplit_ne_nil content)]
  exact smartGo_inv target seps _ (paraSplit content)
    (fun p hp x hx => ⟨p, hp, hx⟩) (paraSplit content) (fun p hp => hp) [] []
    (by simp) (Or.inl (by simp))

theorem c9_smart_accumulation_bound_witness :
    (['a', 'a', 'a', 'a'] : Str) ∈
        smart_split ['a', 'a', 'a', 'a'] 3 10 defaultSeparators ∧
      ((['a', 'a', 'a', 'a'] : Str).length ≤ 3 + 2 ∨
        ∃ p ∈ paraSplit ['a', 'a', 'a', 'a'],
          (['a', 'a', 'a', 'a'] : Str) ∈
            split_by_sentences defaultSeparators (strip p)) :=
  ⟨by decide,
    c9_smart_accumulation_bound 3 10 defaultSeparators ['a', 'a', 'a', 'a']
      ['a', 'a', 'a', 'a'] (by decide)⟩

/-- Shape of re.split output with one single-character capture group:
separator-free chunks alternating with single captured separators, odd
length. -/
inductive AltParts (seps : List Char) : List Str → Prop where
  | single (t : Str) (ht : ∀ c ∈ t, c ∉ seps) : AltParts seps [t]
  | cons (t : Str) (c : Char) (rest : List Str) (ht : ∀ x ∈ t, x ∉ seps)
      (hc : c ∈ seps) (hr : AltParts seps rest) : AltParts seps (t :: [c] :: rest)

lemma altParts_splitParts (seps : List Char) (s : Str) :
    AltParts seps (splitParts seps s) := by
  induction s with
  | nil => exact AltParts.single [] (by simp)
  | cons c rest ih =>
    simp only [splitParts]
    split
    · rename_i hc
      exact AltParts.cons [] c _ (by simp) hc ih
    · rename_i hc
      generalize hs : splitParts seps rest = parts at ih ⊢
      cases ih with
      | single t ht =>
        simp only [consHead]
        refine AltParts.single (c :: t) ?_
        intro x hx
        rcases List.mem_cons.mp hx with h1 | h1
        · subst h1
          exact hc
        · exact ht x h1
      | cons t d rest2 ht hd hr =>
        simp only [consHead]
        refine AltParts.cons (c :: t) d rest2 ?_ hd hr
        intro x hx
        rcases List.mem_cons.mp hx with h1 | h1
        · subst h1
          exact hc
        · exact ht x h1

lemma pair_final_props (seps : List Char)
    (hns : ∀ c ∈ seps, isSpace c = false) :
    ∀ parts : List Str, AltParts seps parts →
      (∃ w : Str, (∀ c ∈ w, isSpace c = true) ∧
        (pairUp parts ++ finalFrag parts).flatten ++ w = parts.flatten) ∧
      ∀ s ∈ pairUp parts ++ finalFrag parts, s ≠ [] ∧
        ((∃ c ∈ seps, s.getLast? = some c) ∨ ∀ c ∈ s, c ∉ seps) := by
  intro parts h
  induction h with
  | single t ht =>
    by_cases hstrip : strip t = []
    · refine ⟨⟨t, all_space_of_strip_eq_nil hstrip, ?_⟩, ?_⟩
      · simp [pairUp, finalFrag, hstrip]
      · intro s hs
        simp [pairUp, finalFrag, hstrip] at hs
    · refine ⟨⟨[], by simp, ?_⟩, ?_⟩
      · simp [pairUp, finalFrag, hstrip]
      · intro s hs
        simp [pairUp, finalFrag, hstrip] at hs
        subst hs
        refine ⟨?_, Or.inr ht⟩
        intro hnil
        subst hnil
        exact hstrip rfl
  | cons t c rest ht hc hr ih =>
    obtain ⟨r, rs, rfl⟩ : ∃ r rs, rest = r :: rs := by
      cases hr with
      | single t2 _ => exact ⟨t2, [], rfl⟩
      | cons t2 c2 rest2 _ _ _ => exact ⟨t2, [c2] :: rest2, rfl⟩
    have hkeep : strip (t ++ [c]) ≠ [] := strip_ne_nil_of_last t c (hns c hc)
    obtain ⟨⟨w, hw, hflat⟩, hmem⟩ := ih
    constructor
    · refine ⟨w, hw, ?_⟩
      show ((if strip (t ++ [c]) = [] then [] else [t ++ [c]]) ++
          pairUp (r :: rs) ++ finalFrag (t :: [c] :: r :: rs)).flatten ++ w = _
      rw [finalFrag_cons_cons, if_neg hkeep]
      simp only [List.cons_append, List.nil_append, List.flatten_cons,
        List.append_assoc, List.flatten_append] at hflat ⊢
      rw [hflat]
    · intro s hs
      replace hs : s ∈ (if strip (t ++ [c]) = [] then [] else [t ++ [c]]) ++
          pairUp (r :: rs) ++ finalFrag (t :: [c] :: r :: rs) := hs
      rw [finalFrag_cons_cons, if_neg hkeep] at hs
      rcases List.mem_append.mp hs with h1 | h1
      · rcases List.mem_append.mp h1 with h2 | h2
        · simp at h2
          subst h2
          refine ⟨by simp, Or.inl ⟨c, hc, ?_⟩⟩
          exact List.getLast?_concat _
        · exact hmem s (List.mem_append.mpr (Or.inl h2))
      · exact hmem s (List.mem_append.mpr (Or.inr h1))

/-- C10 counterexample: for text a-fullstop-space the trailing fragment is a
single space with no terminating separator; _split_by_sentences drops it
(plugin.py:301 keeps the fragment only when it is non-empty after
stripping), so it is not kept as the final sentence and the concatenation of
the returned tokens, which the claim as stated forces to restore the text,
does not. -/
theorem c10_tokenization_counterexample :
    split_by_sentences defaultSeparators ['a', '。', ' '] = [['a', '。']] ∧
      (split_by_sentences defaultSeparators ['a', '。', ' ']).flatten ≠
        ['a', '。', ' '] := by
  constructor
  · decide
  · decide

/-- C10 amended: for every text and every non-empty set of non-whitespace
separator characters, tokenization splits on each separator occurrence and
re-attaches the separator to the sentence it terminates: every token is
non-empty and either ends with a separator (it may consist of just the
separator when the preceding chunk is empty) or contains no separator at
all (the trailing fragment); concatenating the tokens restores the text up
to a dropped all-whitespace trailing fragment. -/
theorem c10_sentence_tokenization (seps : List Char) (text : Str)
    (hne : seps ≠ []) (hns : ∀ c ∈ seps, isSpace c = false) :
    ∃ w : Str, (∀ c ∈ w, isSpace c = true) ∧
      (split_by_sentences seps text).flatten ++ w = text ∧
      ∀ s ∈ split_by_sentences seps text, s ≠ [] ∧
        ((∃ c ∈ seps, s.getLast? = some c) ∨ ∀ c ∈ s, c ∉ seps) := by
  obtain ⟨⟨w, hw, hflat⟩, hmem⟩ :=
    pair_final_props seps hns (splitParts seps text)
      (altParts_splitParts seps text)
  rw [splitParts_flatten] at hflat
  exact ⟨w, hw, hflat, hmem⟩

theorem c10_sentence_tokenization_witness :
    defaultSeparators ≠ [] ∧ (∀ c ∈ defaultSeparators, isSpace c = false) ∧
      ∃ w : Str, (∀ c ∈ w, isSpace c = true) ∧
        (split_by_sentences defaultSeparators ['a', '。', 'b']).flatten ++ w =
          ['a', '。', 'b'] ∧
        ∀ s ∈ split_by_sentences defaultSeparators ['a', '。', 'b'], s ≠ [] ∧
          ((∃ c ∈ defaultSeparators, s.getLast? = some c) ∨
            ∀ c ∈ s, c ∉ defaultSeparators) :=
  ⟨by decide, by decide,
    c10_sentence_tokenization defaultSeparators ['a', '。', 'b']
      (by decide) (by decide)⟩

end DetailedExplanation
